import Mathlib

/-!
# Verification of the CSV filter/sort/aggregate pipeline

Shallow embedding of `src/main.py` (the command pipeline of the CSV
command-line utility): the predicate evaluator (`RowFilter`), the
aggregation strategies and the `DictAggregator`, the `FilterCommand`,
`OrderByCommand` and `AggregateCommand`, and the `CsvApp.run`
orchestrator.

Modelling conventions:
* A Python `dict` row is an association list from column name to cell;
  a cell is `Option String` (`Option.none` models Python's `None`).
* Python exceptions are modelled with `Except PyErr`; the distinct
  `ValueError`s raised by the program get distinct constructors.
* Python floats are modelled as exact rationals `ℚ`; `pythonFloat`
  models `float(s)` on decimal literals (optional sign, digits with an
  optional decimal point, optional exponent).  Whitespace, `inf`/`nan`
  words and digit underscores are outside the model.
* A strategy's `float("nan")` sentinel on empty input, and the
  aggregator's Python `None`, are both modelled as `Option.none` at
  their respective layers.
-/

namespace CsvPipeline

/-- The error outcomes of the program, one constructor per distinct
exception site (`KeyError` on a missing column, `TypeError` from
comparing/converting `None` or mixed sort keys, and the `ValueError`s
raised by the program). -/
inductive PyErr
  | keyError (k : String)
  | typeError
  | unsupportedOperator (op : String)
  | unknownAggregation (name : String)
  | invalidNumericValue (s : String)
  | orderByFormat
  | unpackError
  deriving DecidableEq, Repr

instance {ε α : Type _} [DecidableEq ε] [DecidableEq α] : DecidableEq (Except ε α) :=
  fun x y =>
  match x, y with
  | .ok a, .ok b => decidable_of_iff (a = b) (by simp)
  | .error a, .error b => decidable_of_iff (a = b) (by simp)
  | .ok _, .error _ => isFalse (by simp)
  | .error _, .ok _ => isFalse (by simp)

/-- One CSV row: a mapping from column name to cell value, as produced
by `csv.DictReader`.  A cell holds `Option.none` for Python `None`. -/
abbrev Row := List (String × Option String)

/-- `row[col]` on a Python dict: the value if the key is present,
`KeyError` otherwise. -/
def rowLookup (row : Row) (col : String) : Except PyErr (Option String) :=
  match row.lookup col with
  | some v => .ok v
  | none => .error (.keyError col)

/-- Value of a digit run, most significant first. -/
def digitsToNat (cs : List Char) : Nat :=
  cs.foldl (fun a c => 10 * a + (c.toNat - 48)) 0

/-- Unsigned decimal mantissa: `digits`, `digits.digits`, `digits.` or
`.digits` (at least one digit overall). -/
def parseUnsignedDec (cs : List Char) : Option ℚ :=
  let ip := cs.takeWhile Char.isDigit
  let rest := cs.dropWhile Char.isDigit
  match rest with
  | [] => if ip.isEmpty then none else some (digitsToNat ip)
  | '.' :: fp =>
    if fp.all Char.isDigit && !(ip.isEmpty && fp.isEmpty) then
      some ((digitsToNat ip : ℚ) + (digitsToNat fp : ℚ) / (10 : ℚ) ^ fp.length)
    else none
  | _ => none

/-- Signed integer exponent after `e`/`E`. -/
def parseExpInt (cs : List Char) : Option ℤ :=
  match cs with
  | '+' :: ds =>
    if ds.isEmpty || !ds.all Char.isDigit then none else some (digitsToNat ds)
  | '-' :: ds =>
    if ds.isEmpty || !ds.all Char.isDigit then none else some (-(digitsToNat ds : ℤ))
  | ds =>
    if ds.isEmpty || !ds.all Char.isDigit then none else some (digitsToNat ds)

/-- Mantissa with optional exponent part. -/
def pyFloatCore (cs : List Char) : Option ℚ :=
  let mant := cs.takeWhile (fun c => c ≠ 'e' ∧ c ≠ 'E')
  let rest := cs.dropWhile (fun c => c ≠ 'e' ∧ c ≠ 'E')
  match rest with
  | [] => parseUnsignedDec mant
  | _ :: ecs =>
    match parseUnsignedDec mant, parseExpInt ecs with
    | some m, some e => some (m * (10 : ℚ) ^ e)
    | _, _ => none

/-- Model of Python `float(s)` on decimal literals, as an exact
rational; `none` models the `ValueError` path of an unparsable string. -/
def pythonFloat (s : String) : Option ℚ :=
  match s.data with
  | '+' :: cs => pyFloatCore cs
  | '-' :: cs => (pyFloatCore cs).map (fun q => -q)
  | cs => pyFloatCore cs

/-- Lexicographic strict comparison of character lists by code point;
this is Python's `<` on `str`. -/
def charListLt : List Char → List Char → Bool
  | _, [] => false
  | [], _ :: _ => true
  | a :: as, b :: bs =>
    if a.toNat < b.toNat then true
    else if b.toNat < a.toNat then false
    else charListLt as bs

/-- Python's `a < b` on strings. -/
def pyStrLt (a b : String) : Bool :=
  charListLt a.data b.data

/-- A comparison spec bound into a filter: `RowFilter(column, op, value)`.
The constructor performs no validation, exactly like the source. -/
structure RowFilter where
  column : String
  op : String
  value : String
  deriving DecidableEq, Repr

/-- `FilterFactory.create` just forwards to the `RowFilter` constructor. -/
def FilterFactory.create (column op value : String) : RowFilter :=
  ⟨column, op, value⟩

/-- `RowFilter.match`: look the cell up, try to parse both the cell and
the literal as floats (one `try` block: if either raises `ValueError`
both fall back to the raw strings), then dispatch on the operator.
`float(None)` raises `TypeError`, which the `except ValueError` clause
does not catch.  (`match` is a Lean keyword, hence the name.) -/
def RowFilter.matchRow (f : RowFilter) (row : Row) : Except PyErr Bool :=
  match rowLookup row f.column with
  | .error e => .error e
  | .ok Option.none => .error .typeError
  | .ok (Option.some s) =>
    match pythonFloat s, pythonFloat f.value with
    | some cv, some vv =>
      if f.op = ">" then .ok (decide (vv < cv))
      else if f.op = "<" then .ok (decide (cv < vv))
      else if f.op = "=" then .ok (decide (cv = vv))
      else .error (.unsupportedOperator f.op)
    | _, _ =>
      if f.op = ">" then .ok (pyStrLt f.value s)
      else if f.op = "<" then .ok (pyStrLt s f.value)
      else if f.op = "=" then .ok (decide (s = f.value))
      else .error (.unsupportedOperator f.op)

/-- `FilterCommand.execute`: the list comprehension
`[row for row in rows if self.filter.match(row)]`; the first raising
`match` aborts the whole comprehension. -/
def FilterCommand.execute (f : RowFilter) : List Row → Except PyErr (List Row)
  | [] => .ok []
  | r :: rs =>
    match f.matchRow r with
    | .error e => .error e
    | .ok b =>
      match FilterCommand.execute f rs with
      | .error e => .error e
      | .ok rest => .ok (if b then r :: rest else rest)

/-- `AvgAggregation.aggregate`: `sum(values) / len(values)` on a
non-empty list; `none` models the `float("nan")` sentinel on `[]`. -/
def AvgAggregation.aggregate (values : List ℚ) : Option ℚ :=
  if values.isEmpty then none
  else some (values.sum / (values.length : ℚ))

/-- Python `min(list)`: first element folded with `min`. -/
def pyListMin : List ℚ → Option ℚ
  | [] => none
  | x :: xs => some (xs.foldl min x)

/-- Python `max(list)`: first element folded with `max`. -/
def pyListMax : List ℚ → Option ℚ
  | [] => none
  | x :: xs => some (xs.foldl max x)

/-- `MinAggregation.aggregate`: `min(values)` on a non-empty list;
`none` models the `float("nan")` sentinel on `[]`. -/
def MinAggregation.aggregate (values : List ℚ) : Option ℚ :=
  match values with
  | [] => none
  | x :: xs => some (xs.foldl min x)

/-- `MaxAggregation.aggregate`: `max(values)` on a non-empty list;
`none` models the `float("nan")` sentinel on `[]`. -/
def MaxAggregation.aggregate (values : List ℚ) : Option ℚ :=
  match values with
  | [] => none
  | x :: xs => some (xs.foldl max x)

/-- `statistics.median` on a non-empty list: sort, take the middle
element, or the mean of the two middle elements when the length is
even. -/
def statisticsMedian (values : List ℚ) : ℚ :=
  let s := List.insertionSort (· ≤ ·) values
  let n := s.length
  if n % 2 = 1 then s.getD (n / 2) 0
  else (s.getD (n / 2 - 1) 0 + s.getD (n / 2) 0) / 2

/-- `MedianAggregation.aggregate`: `median(values)` on a non-empty
list; `none` models the `float("nan")` sentinel on `[]`. -/
def MedianAggregation.aggregate (values : List ℚ) : Option ℚ :=
  if values.isEmpty then none else some (statisticsMedian values)

/-- The closed set of aggregation strategy implementations. -/
inductive Strategy
  | avg
  | min
  | max
  | median
  deriving DecidableEq, Repr

/-- Dynamic dispatch of `IAggregationStrategy.aggregate`. -/
def Strategy.aggregate : Strategy → List ℚ → Option ℚ
  | .avg => AvgAggregation.aggregate
  | .min => MinAggregation.aggregate
  | .max => MaxAggregation.aggregate
  | .median => MedianAggregation.aggregate

/-- The `AggregationStrategyFactory._strategies` registry. -/
def AggregationStrategyFactory.strategies : List (String × Strategy) :=
  [("avg", .avg), ("min", .min), ("max", .max), ("median", .median)]

/-- `AggregationStrategyFactory.get`: registry lookup, raising
`ValueError` (`unknownAggregation`) on a name outside the registry. -/
def AggregationStrategyFactory.get (name : String) : Except PyErr Strategy :=
  match AggregationStrategyFactory.strategies.lookup name with
  | some s => .ok s
  | none => .error (.unknownAggregation name)

/-- A `DictAggregator(column, strategy)`. -/
structure DictAggregator where
  column : String
  strategy : Strategy
  deriving DecidableEq, Repr

/-- The list comprehension of `DictAggregator.aggregate`:
`[float(row[col]) for row in rows if row[col] not in (None, "")]`.
Per row, in input order: look the cell up (`KeyError` possible), skip
`None` and `""` cells, parse the rest (`ValueError`, modelled as
`invalidNumericValue`, possible). -/
def extractValues (column : String) : List Row → Except PyErr (List ℚ)
  | [] => .ok []
  | r :: rs =>
    match rowLookup r column with
    | .error e => .error e
    | .ok Option.none => extractValues column rs
    | .ok (Option.some s) =>
      if s = "" then extractValues column rs
      else
        match pythonFloat s with
        | some q =>
          match extractValues column rs with
          | .error e => .error e
          | .ok rest => .ok (q :: rest)
        | none => .error (.invalidNumericValue s)

/-- `DictAggregator.aggregate`: extract the numeric column, return
Python `None` (here the outer `Option.none`) when no value survives,
otherwise delegate to the strategy (whose argument is then non-empty,
so the strategy's own sentinel path is unreachable). -/
def DictAggregator.aggregate (a : DictAggregator) (rows : List Row) :
    Except PyErr (Option ℚ) :=
  match extractValues a.column rows with
  | .error e => .error e
  | .ok values =>
    if values.isEmpty then .ok none
    else .ok (a.strategy.aggregate values)

/-- `AggregatorFactory.create`: select the strategy (which may raise),
then build the `DictAggregator`. -/
def AggregatorFactory.create (column func : String) : Except PyErr DictAggregator :=
  match AggregationStrategyFactory.get func with
  | .error e => .error e
  | .ok s => .ok ⟨column, s⟩

/-- A sort key produced by `OrderByCommand`'s `key_func`: the parsed
float, or the raw string when parsing fails, or Python `None` when the
cell itself is `None` (`float(None)` raises `TypeError`, which the
`except (ValueError, TypeError)` clause catches, returning the cell). -/
inductive PyVal
  | num (q : ℚ)
  | str (s : String)
  | pynone
  deriving DecidableEq, Repr

def PyVal.isNum : PyVal → Bool
  | .num _ => true
  | _ => false

def PyVal.isStr : PyVal → Bool
  | .str _ => true
  | _ => false

/-- `key_func(r)` of `OrderByCommand.execute`. -/
def orderKey (col : String) (r : Row) : Except PyErr PyVal :=
  match rowLookup r col with
  | .error e => .error e
  | .ok Option.none => .ok .pynone
  | .ok (Option.some s) =>
    match pythonFloat s with
    | some q => .ok (.num q)
    | none => .ok (.str s)

/-- Lexicographic `≤` on character lists by code point, the dual of
`charListLt`. -/
def charListLe : List Char → List Char → Bool
  | [], _ => true
  | _ :: _, [] => false
  | a :: as, b :: bs =>
    if a.toNat < b.toNat then true
    else if b.toNat < a.toNat then false
    else charListLe as bs

theorem charListLe_eq_not_lt : ∀ a b : List Char, charListLe a b = !charListLt b a
  | [], [] => rfl
  | [], _ :: _ => rfl
  | _ :: _, [] => rfl
  | a :: as, b :: bs => by
    simp only [charListLe, charListLt]
    rcases Nat.lt_trichotomy a.toNat b.toNat with h | h | h
    · simp [h, Nat.not_lt.mpr (Nat.le_of_lt h), Nat.lt_asymm h]
    · simp [h, Nat.lt_irrefl, charListLe_eq_not_lt as bs]
    · simp [h, Nat.not_lt.mpr (Nat.le_of_lt h), Nat.lt_asymm h]

theorem charListLe_refl : ∀ a : List Char, charListLe a a = true
  | [] => rfl
  | a :: as => by simp [charListLe, Nat.lt_irrefl, charListLe_refl as]

theorem charListLe_total : ∀ a b : List Char,
    charListLe a b = true ∨ charListLe b a = true
  | [], _ => Or.inl rfl
  | _ :: _, [] => Or.inr rfl
  | a :: as, b :: bs => by
    simp only [charListLe]
    rcases Nat.lt_trichotomy a.toNat b.toNat with h | h | h
    · simp [h]
    · simp [h, Nat.lt_irrefl]
      exact charListLe_total as bs
    · simp [h, Nat.not_lt.mpr (Nat.le_of_lt h), Nat.lt_asymm h]

theorem charListLe_trans : ∀ a b c : List Char,
    charListLe a b = true → charListLe b c = true → charListLe a c = true
  | [], _, _, _, _ => rfl
  | _ :: _, [], _, hab, _ => by simp [charListLe] at hab
  | _ :: _, _ :: _, [], _, hbc => by simp [charListLe] at hbc
  | a :: as, b :: bs, c :: cs, hab, hbc => by
    simp only [charListLe] at hab hbc ⊢
    rcases Nat.lt_trichotomy a.toNat b.toNat with h1 | h1 | h1
    · rcases Nat.lt_trichotomy b.toNat c.toNat with h2 | h2 | h2
      · simp [Nat.lt_trans h1 h2]
      · simp [h2 ▸ h1]
      · simp [h2, Nat.not_lt.mpr (Nat.le_of_lt h2), Nat.lt_asymm h2] at hbc
    · rcases Nat.lt_trichotomy b.toNat c.toNat with h2 | h2 | h2
      · simp [h1 ▸ h2]
      · simp only [h1, h2] at *
        simp only [Nat.lt_irrefl, if_false] at hab hbc ⊢
        exact charListLe_trans as bs cs hab hbc
      · simp [h2, Nat.not_lt.mpr (Nat.le_of_lt h2), Nat.lt_asymm h2] at hbc
    · simp [h1, Nat.not_lt.mpr (Nat.le_of_lt h1), Nat.lt_asymm h1] at hab

/-- Total comparison underlying the sort model.  Only the `num`/`num`
and `str`/`str` cases are ever reached by `OrderByCommand.execute`
(`comparableKeys` guards the rest); the remaining cases are an
arbitrary total extension so that the relation satisfies the order
laws the sort lemmas need. -/
def keyLeB : PyVal → PyVal → Bool
  | .num a, .num b => decide (a ≤ b)
  | .str a, .str b => charListLe a.data b.data
  | .pynone, _ => true
  | _, .pynone => false
  | .num _, .str _ => true
  | .str _, .num _ => false

theorem keyLeB_refl : ∀ a : PyVal, keyLeB a a = true := by
  intro a
  cases a <;> simp [keyLeB, charListLe_refl]

theorem keyLeB_total : ∀ a b : PyVal, keyLeB a b = true ∨ keyLeB b a = true := by
  intro a b
  cases a <;> cases b <;> simp [keyLeB]
  · exact le_total _ _
  · exact charListLe_total _ _

theorem keyLeB_trans : ∀ a b c : PyVal,
    keyLeB a b = true → keyLeB b c = true → keyLeB a c = true := by
  intro a b c hab hbc
  cases a <;> cases b <;> cases c <;> simp_all [keyLeB]
  · exact le_trans hab hbc
  · exact charListLe_trans _ _ _ hab hbc

/-- The ordering the sort uses on `(row, key)` pairs: compare keys. -/
def rowKeyLe (a b : Row × PyVal) : Prop :=
  keyLeB a.2 b.2 = true

instance : DecidableRel rowKeyLe :=
  fun a b => instDecidableEqBool (keyLeB a.2 b.2) true

instance : IsTotal (Row × PyVal) rowKeyLe :=
  ⟨fun a b => keyLeB_total a.2 b.2⟩

instance : IsTrans (Row × PyVal) rowKeyLe :=
  ⟨fun _ _ _ hab hbc => keyLeB_trans _ _ _ hab hbc⟩

instance : IsRefl (Row × PyVal) rowKeyLe :=
  ⟨fun a => keyLeB_refl a.2⟩

/-- CPython `list.sort(reverse=...)` on decorated `(row, key)` pairs:
a stable ascending sort; `reverse=True` is implemented by reversing
before and after the ascending sort (`listsort_impl`), which yields
the descending order with ties kept in original input order.  On keys
that are pairwise comparable a stable sort is uniquely determined, so
`List.insertionSort` stands in for timsort. -/
def pySortPairs (rev : Bool) (l : List (Row × PyVal)) : List (Row × PyVal) :=
  match rev with
  | true => (List.insertionSort rowKeyLe l.reverse).reverse
  | false => List.insertionSort rowKeyLe l

/-- CPython raises `TypeError` while sorting exactly when the key list
mixes floats, strings or `None` (any two keys of distinct kinds, or
two `None`s, are incomparable, and every sort of ≥ 2 elements compares
each element at least once); with at most one key no comparison
happens and any key is fine. -/
def comparableKeys (ks : List PyVal) : Bool :=
  decide (ks.length ≤ 1) || ks.all PyVal.isNum || ks.all PyVal.isStr

/-- The decoration pass of CPython's `sorted(rows, key=...)`: the key
function is applied to every element in input order before any
comparison happens. -/
def computeKeys (col : String) : List Row → Except PyErr (List (Row × PyVal))
  | [] => .ok []
  | r :: rs =>
    match orderKey col r with
    | .error e => .error e
    | .ok k =>
      match computeKeys col rs with
      | .error e => .error e
      | .ok rest => .ok ((r, k) :: rest)

/-- `OrderByCommand.execute`:
`sorted(rows, key=key_func, reverse=self.reverse)`. -/
def OrderByCommand.execute (col : String) (rev : Bool) (rows : List Row) :
    Except PyErr (List Row) :=
  match computeKeys col rows with
  | .error e => .error e
  | .ok keyed =>
    if comparableKeys (keyed.map Prod.snd) then
      .ok ((pySortPairs rev keyed).map Prod.fst)
    else .error .typeError

/-- What the program prints: either the row table rendered by the
printer collaborator (`DictPrinter.print`), or the single-value grid
an `AggregateCommand` emits itself (`tabulate([[result]], ...)`),
labelled by the strategy name. -/
inductive Out
  | table (rows : List Row)
  | aggValue (label : String) (value : Option ℚ)
  deriving DecidableEq, Repr

/-- `AggregateCommand.execute`: compute the aggregate, print it as a
side effect, and return the *input* rows unchanged. -/
def AggregateCommand.execute (agg : DictAggregator) (func : String)
    (rows : List Row) : Except PyErr (List Row × List Out) :=
  match agg.aggregate rows with
  | .error e => .error e
  | .ok result => .ok (rows, [Out.aggValue func result])

/-- The argument struct `CsvApp.run` receives, after `ArgsParser` has
already split `--where` into a `(column, op, value)` triple and
`--aggregate` into a `(column, func)` pair; `--order-by` arrives as
the raw `COLUMN=asc|desc` string, split inside `run` itself. -/
structure Args where
  whereArg : Option (String × String × String)
  order_by : Option String
  aggregate : Option (String × String)
  deriving DecidableEq, Repr

/-- A constructed pipeline command. -/
inductive Command
  | filterCmd (f : RowFilter)
  | orderByCmd (col : String) (rev : Bool)
  | aggregateCmd (agg : DictAggregator) (func : String)
  deriving DecidableEq, Repr

/-- `ICommand.execute` dispatch; filter and order-by print nothing. -/
def Command.execute : Command → List Row → Except PyErr (List Row × List Out)
  | .filterCmd f, rows =>
    match FilterCommand.execute f rows with
    | .error e => .error e
    | .ok out => .ok (out, [])
  | .orderByCmd col rev, rows =>
    match OrderByCommand.execute col rev rows with
    | .error e => .error e
    | .ok out => .ok (out, [])
  | .aggregateCmd agg func, rows => AggregateCommand.execute agg func rows

/-- The `--order-by` handling inside `CsvApp.run`: raise if the string
has no `=`, then `column, direction = s.split("=")` (raising when the
split does not have exactly two parts), `reverse` iff the lowered
direction is `"desc"`. -/
def parseOrderBy (s : String) : Except PyErr (String × Bool) :=
  if ¬ s.data.contains '=' then .error .orderByFormat
  else
    match s.splitOn "=" with
    | [column, direction] => .ok (column, direction.toLower = "desc")
    | _ => .error .unpackError

/-- The command-assembly phase of `CsvApp.run`: filter, then order-by,
then aggregate, each present only when its argument is; building the
aggregate command selects the strategy and can fail. -/
def buildCommands (args : Args) : Except PyErr (List Command) :=
  let filterCmds : List Command :=
    match args.whereArg with
    | some (c, o, v) => [Command.filterCmd (FilterFactory.create c o v)]
    | none => []
  match ((match args.order_by with
          | some s =>
            match parseOrderBy s with
            | .error e => .error e
            | .ok (c, rev) => .ok [Command.orderByCmd c rev]
          | none => .ok ([] : List Command)) : Except PyErr (List Command)) with
  | .error e => .error e
  | .ok orderCmds =>
    match ((match args.aggregate with
            | some (c, f) =>
              match AggregatorFactory.create c f with
              | .error e => .error e
              | .ok agg => .ok [Command.aggregateCmd agg f]
            | none => .ok ([] : List Command)) : Except PyErr (List Command)) with
    | .error e => .error e
    | .ok aggCmds => .ok (filterCmds ++ orderCmds ++ aggCmds)

/-- The execution loop `for cmd in commands: rows = cmd.execute(rows)`,
collecting the printed side effects in order. -/
def runCommands : List Command → List Row → Except PyErr (List Row × List Out)
  | [], rows => .ok (rows, [])
  | c :: cs, rows =>
    match c.execute rows with
    | .error e => .error e
    | .ok (rows1, outs1) =>
      match runCommands cs rows1 with
      | .error e => .error e
      | .ok (rows2, outs2) => .ok (rows2, outs1 ++ outs2)

/-- `CsvApp.run`, starting from the row collection the reader
collaborator produced (the file read itself is an external
collaborator and outside this model): build the pipeline, run it, and
print the final table unless an aggregate was requested. -/
def CsvApp.run (rows : List Row) (args : Args) :
    Except PyErr (List Row × List Out) :=
  match buildCommands args with
  | .error e => .error e
  | .ok cmds =>
    match runCommands cmds rows with
    | .error e => .error e
    | .ok (finalRows, outs) =>
      if args.aggregate.isSome then .ok (finalRows, outs)
      else .ok (finalRows, outs ++ [Out.table finalRows])

/-! ## Claim-side (specification) definitions -/

/-- Transcribed from the spec: the numeric comparison of the two
parsed values, `=` exact equality, `>`/`<` the strict orders. -/
def numCmp (op : String) (cell lit : ℚ) : Bool :=
  if op = ">" then decide (lit < cell)
  else if op = "<" then decide (cell < lit)
  else decide (cell = lit)

/-- Transcribed from the spec: the raw-string comparison, `=` meaning
string equality and `>`/`<` lexicographic order. -/
def strCmp (op : String) (cell lit : String) : Bool :=
  if op = ">" then pyStrLt lit cell
  else if op = "<" then pyStrLt cell lit
  else decide (cell = lit)

/-- Transcribed from the spec (claim C1): numeric comparison when both
the cell and the literal parse as floats, raw-string comparison
otherwise. -/
def claimExpected (op cell lit : String) : Bool :=
  match pythonFloat cell, pythonFloat lit with
  | some a, some b => numCmp op a b
  | _, _ => strCmp op cell lit

/-- The predicate "this row matched", read off a non-raising run of
`RowFilter.match`; a raising run counts as no match.  Used to state the
filter characterisation. -/
def matchedB (f : RowFilter) (r : Row) : Bool :=
  match f.matchRow r with
  | .ok b => b
  | .error _ => false

/-- Transcribed from the spec: the numeric value a row contributes to
the aggregation set — its parsed cell — or nothing when the cell is
absent (`None`) or the empty string. -/
def numericCell (col : String) (r : Row) : Option ℚ :=
  match r.lookup col with
  | some (some s) => if s = "" then none else pythonFloat s
  | _ => none

/-- Transcribed from the spec: the middle value of a sorted sequence,
the average of the two middle values when the count is even. -/
def middleOfSorted (s : List ℚ) : ℚ :=
  if s.length % 2 = 1 then s.getD (s.length / 2) 0
  else (s.getD (s.length / 2 - 1) 0 + s.getD (s.length / 2) 0) / 2

/-! ## Helper lemmas -/

theorem rowLookup_ok_iff {r : Row} {col : String} {v : Option String} :
    rowLookup r col = .ok v ↔ r.lookup col = some v := by
  unfold rowLookup
  cases r.lookup col <;> simp

/-! ## Claim C1 -/

/-- C1: for every row and comparison spec whose operator is one of
`>`, `<`, `=`, and whose cell is present and a string, `match` returns
the numeric comparison of the parsed cell and literal when both parse
as floats, and the raw-string comparison (with `=` string equality and
`>`/`<` lexicographic) when either fails to parse. -/
theorem match_numeric_with_string_fallback (f : RowFilter) (row : Row) (s : String)
    (hop : f.op = ">" ∨ f.op = "<" ∨ f.op = "=")
    (hcell : rowLookup row f.column = .ok (some s)) :
    f.matchRow row = .ok (claimExpected f.op s f.value) := by
  rcases hop with h | h | h <;>
    simp only [RowFilter.matchRow, hcell, claimExpected, numCmp, strCmp, h] <;>
    rcases hs : pythonFloat s with _ | cv <;>
    rcases hv : pythonFloat f.value with _ | vv <;>
    simp [hs, hv]

/-- Witness for C1: `price > 150` on a row with `price = 200`. -/
theorem match_numeric_with_string_fallback_witness :
    rowLookup [("price", Option.some "200")] "price" = .ok (Option.some "200") ∧
    (RowFilter.mk "price" ">" "150").matchRow [("price", Option.some "200")] =
      .ok (claimExpected ">" "200" "150") :=
  ⟨by decide,
   match_numeric_with_string_fallback (RowFilter.mk "price" ">" "150")
     [("price", Option.some "200")] "200" (Or.inl rfl) (by decide)⟩

/-! ## Claim C2 -/

/-- C2 (code bug): each row's sort key is indeed the numeric parse of
its cell, falling back to the raw string — but sorting a column that
mixes numeric and non-numeric cells does *not* complete: `sorted`
raises `TypeError` when it compares a float key with a str key, as on
the two-row collection below. -/
theorem orderBy_mixed_column_raises_typeError :
    orderKey "c" [("c", Option.some "1")] = .ok (.num 1) ∧
    orderKey "c" [("c", Option.some "a")] = .ok (.str "a") ∧
    OrderByCommand.execute "c" false [[("c", Option.some "1")], [("c", Option.some "a")]] =
      .error .typeError :=
  ⟨by decide, by decide, by decide⟩

/-! ## Claim C3 -/

/-- Counterexample to C3: a filter whose operator is `"!"` — outside
`{>, <, =}` — is built by `FilterFactory.create`/`RowFilter.__init__`
without any error, and then runs over an empty row collection
silently, accepting all (zero) of its rows; nothing fails at
spec-construction time. -/
theorem malformed_operator_filter_builds_and_runs :
    FilterFactory.create "c" "!" "v" = RowFilter.mk "c" "!" "v" ∧
    FilterCommand.execute (FilterFactory.create "c" "!" "v") [] = .ok [] :=
  ⟨rfl, rfl⟩

/-- C3 as amended: constructing a filter performs no operator
validation and always succeeds; an operator outside `{>, <, =}` is
rejected only at match time, where matching any row whose cell is
present (a string) fails with `UnsupportedOperator`; over an empty row
collection such a filter runs without error and returns the empty
collection. -/
theorem malformed_operator_fails_only_at_match (c op v : String)
    (hop : op ≠ ">" ∧ op ≠ "<" ∧ op ≠ "=") :
    FilterFactory.create c op v = RowFilter.mk c op v ∧
    FilterCommand.execute (FilterFactory.create c op v) [] = .ok [] ∧
    ∀ (row : Row) (s : String), rowLookup row c = .ok (some s) →
      (FilterFactory.create c op v).matchRow row = .error (.unsupportedOperator op) := by
  obtain ⟨h1, h2, h3⟩ := hop
  refine ⟨rfl, rfl, fun row s hcell => ?_⟩
  simp only [FilterFactory.create, RowFilter.matchRow, hcell]
  rcases pythonFloat s with _ | cv <;>
    rcases pythonFloat v with _ | vv <;>
    simp [h1, h2, h3]

/-- Witness for C3's amended theorem: the `"!"` filter raises
`UnsupportedOperator` on the first matched row. -/
theorem malformed_operator_fails_only_at_match_witness :
    (FilterFactory.create "c" "!" "v").matchRow [("c", Option.some "x")] =
      .error (.unsupportedOperator "!") :=
  (malformed_operator_fails_only_at_match "c" "!" "v"
    ⟨by decide, by decide, by decide⟩).2.2 [("c", Option.some "x")] "x" (by decide)

/-! ## Claim C4 -/

theorem extractValues_all_empty {col : String} :
    ∀ rows : List Row,
      (∀ r ∈ rows, ∃ c, rowLookup r col = .ok c ∧ (c = Option.none ∨ c = some "")) →
      extractValues col rows = .ok []
  | [], _ => rfl
  | r :: rs, h => by
    obtain ⟨c, hc, hcase⟩ := h r (List.mem_cons_self r rs)
    have hrs := extractValues_all_empty rs (fun x hx => h x (List.mem_cons_of_mem r hx))
    rcases hcase with rfl | rfl <;> simp [extractValues, hc, hrs]

/-- C4: over any row collection — the empty one included — in which
every cell of the aggregation column is the empty string or `None`,
the aggregator returns the explicit absent result `None` (`.ok none`):
not zero, not an error, and the strategies' not-a-number sentinel is
never consulted on this path. -/
theorem aggregate_all_empty_returns_absent (a : DictAggregator) (rows : List Row)
    (h : ∀ r ∈ rows, ∃ c, rowLookup r a.column = .ok c ∧
      (c = Option.none ∨ c = some "")) :
    a.aggregate rows = .ok Option.none := by
  simp [DictAggregator.aggregate, extractValues_all_empty rows h]

/-- Witness for C4: one empty-string cell and one `None` cell. -/
theorem aggregate_all_empty_returns_absent_witness :
    (DictAggregator.mk "p" Strategy.avg).aggregate
      [[("p", Option.some "")], [("p", Option.none)]] = .ok Option.none :=
  aggregate_all_empty_returns_absent (DictAggregator.mk "p" Strategy.avg)
    [[("p", Option.some "")], [("p", Option.none)]]
    (by
      intro r hr
      simp only [List.mem_cons, List.not_mem_nil, or_false] at hr
      rcases hr with rfl | rfl
      · exact ⟨Option.some "", by decide, Or.inr rfl⟩
      · exact ⟨Option.none, by decide, Or.inl rfl⟩)

/-! ## Claim C5 -/

theorem foldl_min_mem : ∀ (xs : List ℚ) (x : ℚ), xs.foldl min x ∈ x :: xs
  | [], _ => List.mem_singleton_self _
  | y :: ys, x => by
    rw [List.foldl_cons]
    rcases List.mem_cons.mp (foldl_min_mem ys (min x y)) with h | h
    · rcases min_choice x y with hc | hc
      · rw [h, hc]; exact List.mem_cons_self _ _
      · rw [h, hc]; exact List.mem_cons_of_mem _ (List.mem_cons_self _ _)
    · exact List.mem_cons_of_mem _ (List.mem_cons_of_mem _ h)

theorem foldl_min_le : ∀ (xs : List ℚ) (x : ℚ),
    xs.foldl min x ≤ x ∧ ∀ y ∈ xs, xs.foldl min x ≤ y
  | [], x => ⟨le_refl x, by simp⟩
  | y :: ys, x => by
    obtain ⟨h1, h2⟩ := foldl_min_le ys (min x y)
    refine ⟨le_trans h1 (min_le_left x y), fun z hz => ?_⟩
    rcases List.mem_cons.mp hz with rfl | hm
    · exact le_trans h1 (min_le_right x z)
    · exact h2 z hm

theorem foldl_max_mem : ∀ (xs : List ℚ) (x : ℚ), xs.foldl max x ∈ x :: xs
  | [], _ => List.mem_singleton_self _
  | y :: ys, x => by
    rw [List.foldl_cons]
    rcases List.mem_cons.mp (foldl_max_mem ys (max x y)) with h | h
    · rcases max_choice x y with hc | hc
      · rw [h, hc]; exact List.mem_cons_self _ _
      · rw [h, hc]; exact List.mem_cons_of_mem _ (List.mem_cons_self _ _)
    · exact List.mem_cons_of_mem _ (List.mem_cons_of_mem _ h)

theorem foldl_max_le : ∀ (xs : List ℚ) (x : ℚ),
    x ≤ xs.foldl max x ∧ ∀ y ∈ xs, y ≤ xs.foldl max x
  | [], x => ⟨le_refl x, by simp⟩
  | y :: ys, x => by
    obtain ⟨h1, h2⟩ := foldl_max_le ys (max x y)
    refine ⟨le_trans (le_max_left x y) h1, fun z hz => ?_⟩
    rcases List.mem_cons.mp hz with rfl | hm
    · exact le_trans (le_max_right x z) h1
    · exact h2 z hm

/-- C5: on every non-empty value list, `avg` is the arithmetic mean,
`min`/`max` are a least and a greatest element, and `median` is the
middle of a sorted rearrangement of the list (average of the two
middles when the count is even); concretely, on `[100, 200, 300, 400]`
they return `250`, `100`, `400` and `250`. -/
theorem strategies_compute_reference_definitions :
    (∀ l : List ℚ, l ≠ [] →
        AvgAggregation.aggregate l = some (l.sum / (l.length : ℚ))) ∧
    (∀ l : List ℚ, l ≠ [] →
        ∃ m, MinAggregation.aggregate l = some m ∧ m ∈ l ∧ ∀ x ∈ l, m ≤ x) ∧
    (∀ l : List ℚ, l ≠ [] →
        ∃ m, MaxAggregation.aggregate l = some m ∧ m ∈ l ∧ ∀ x ∈ l, x ≤ m) ∧
    (∀ l : List ℚ, l ≠ [] →
        ∃ s, s.Perm l ∧ s.Sorted (· ≤ ·) ∧
          MedianAggregation.aggregate l = some (middleOfSorted s)) ∧
    (AvgAggregation.aggregate [100, 200, 300, 400] = some 250 ∧
     MinAggregation.aggregate [100, 200, 300, 400] = some 100 ∧
     MaxAggregation.aggregate [100, 200, 300, 400] = some 400 ∧
     MedianAggregation.aggregate [100, 200, 300, 400] = some 250) := by
  refine ⟨?_, ?_, ?_, ?_,
    by norm_num [AvgAggregation.aggregate, List.sum_cons, List.sum_nil],
    by decide, by decide,
    by norm_num [MedianAggregation.aggregate, statisticsMedian,
      List.insertionSort, List.orderedInsert]⟩
  · intro l hl
    simp [AvgAggregation.aggregate, List.isEmpty_iff, hl]
  · intro l hl
    match l with
    | x :: xs =>
      exact ⟨xs.foldl min x, rfl, foldl_min_mem xs x, by
        intro z hz
        rcases List.mem_cons.mp hz with rfl | hm
        · exact (foldl_min_le xs z).1
        · exact (foldl_min_le xs x).2 z hm⟩
  · intro l hl
    match l with
    | x :: xs =>
      exact ⟨xs.foldl max x, rfl, foldl_max_mem xs x, by
        intro z hz
        rcases List.mem_cons.mp hz with rfl | hm
        · exact (foldl_max_le xs z).1
        · exact (foldl_max_le xs x).2 z hm⟩
  · intro l hl
    refine ⟨List.insertionSort (· ≤ ·) l, List.perm_insertionSort _ l,
      List.sorted_insertionSort _ l, ?_⟩
    simp [MedianAggregation.aggregate, List.isEmpty_iff, hl,
      statisticsMedian, middleOfSorted]

/-- Witness for C5's universally quantified parts, at `[1, 2]`. -/
theorem strategies_compute_reference_definitions_witness :
    AvgAggregation.aggregate [1, 2] =
      some (([1, 2] : List ℚ).sum / (([1, 2] : List ℚ).length : ℚ)) ∧
    (∃ m, MinAggregation.aggregate [1, 2] = some m ∧ m ∈ ([1, 2] : List ℚ) ∧
      ∀ x ∈ ([1, 2] : List ℚ), m ≤ x) ∧
    (∃ m, MaxAggregation.aggregate [1, 2] = some m ∧ m ∈ ([1, 2] : List ℚ) ∧
      ∀ x ∈ ([1, 2] : List ℚ), x ≤ m) ∧
    (∃ s, s.Perm ([1, 2] : List ℚ) ∧ s.Sorted (· ≤ ·) ∧
      MedianAggregation.aggregate [1, 2] = some (middleOfSorted s)) :=
  ⟨strategies_compute_reference_definitions.1 [1, 2] (by decide),
   strategies_compute_reference_definitions.2.1 [1, 2] (by decide),
   strategies_compute_reference_definitions.2.2.1 [1, 2] (by decide),
   strategies_compute_reference_definitions.2.2.2.1 [1, 2] (by decide)⟩

/-! ## Claim C6 -/

theorem extractValues_eq_filterMap {col : String} :
    ∀ rows : List Row,
      (∀ r ∈ rows, ∃ c, rowLookup r col = .ok c ∧
        (c = Option.none ∨ ∃ s, c = some s ∧ (s = "" ∨ (pythonFloat s).isSome))) →
      extractValues col rows = .ok (rows.filterMap (numericCell col))
  | [], _ => rfl
  | r :: rs, h => by
    obtain ⟨c, hc, hcase⟩ := h r (List.mem_cons_self r rs)
    have hrs := extractValues_eq_filterMap rs (fun x hx => h x (List.mem_cons_of_mem r hx))
    have hlk := rowLookup_ok_iff.mp hc
    rcases hcase with rfl | ⟨s, rfl, hs⟩
    · simp [extractValues, hc, hrs, List.filterMap_cons, numericCell, hlk]
    · rcases hs with rfl | hsome
      · simp [extractValues, hc, hrs, List.filterMap_cons, numericCell, hlk]
      · obtain ⟨q, hq⟩ := Option.isSome_iff_exists.mp hsome
        by_cases hse : s = ""
        · subst hse
          simp [extractValues, hc, hrs, List.filterMap_cons, numericCell, hlk]
        · simp [extractValues, hc, hrs, hq, List.filterMap_cons, numericCell, hlk, hse]

theorem extractValues_nonnumeric_raises {col : String} :
    ∀ rows : List Row,
      (∀ r ∈ rows, ∃ c, rowLookup r col = .ok c) →
      (∃ r ∈ rows, ∃ s, rowLookup r col = .ok (some s) ∧ s ≠ "" ∧ pythonFloat s = none) →
      ∃ t, t ≠ "" ∧ pythonFloat t = none ∧
        extractValues col rows = .error (.invalidNumericValue t)
  | [], _, hbad => by simp at hbad
  | r :: rs, hok, hbad => by
    obtain ⟨c, hc⟩ := hok r (List.mem_cons_self r rs)
    have hokrs : ∀ x ∈ rs, ∃ c, rowLookup x col = .ok c :=
      fun x hx => hok x (List.mem_cons_of_mem r hx)
    rcases c with _ | s
    · -- the head cell is `None`: the offender, whose cell is a string, is in the tail
      have hbadrs : ∃ x ∈ rs, ∃ s, rowLookup x col = .ok (some s) ∧ s ≠ "" ∧
          pythonFloat s = none := by
        obtain ⟨x, hx, s, hxs, hne, hpf⟩ := hbad
        rcases List.mem_cons.mp hx with rfl | hxm
        · rw [hc] at hxs; exact absurd (Except.ok.inj hxs) (by simp)
        · exact ⟨x, hxm, s, hxs, hne, hpf⟩
      obtain ⟨t, ht1, ht2, ht3⟩ := extractValues_nonnumeric_raises rs hokrs hbadrs
      exact ⟨t, ht1, ht2, by simp [extractValues, hc, ht3]⟩
    · by_cases hse : s = ""
      · subst hse
        have hbadrs : ∃ x ∈ rs, ∃ s, rowLookup x col = .ok (some s) ∧ s ≠ "" ∧
            pythonFloat s = none := by
          obtain ⟨x, hx, s, hxs, hne, hpf⟩ := hbad
          rcases List.mem_cons.mp hx with rfl | hxm
          · rw [hc] at hxs
            exact absurd (Option.some.inj (Except.ok.inj hxs)) (fun h => hne h.symm)
          · exact ⟨x, hxm, s, hxs, hne, hpf⟩
        obtain ⟨t, ht1, ht2, ht3⟩ := extractValues_nonnumeric_raises rs hokrs hbadrs
        exact ⟨t, ht1, ht2, by simp [extractValues, hc, ht3]⟩
      · rcases hq : pythonFloat s with _ | q
        · exact ⟨s, hse, hq, by simp [extractValues, hc, hse, hq]⟩
        · have hbadrs : ∃ x ∈ rs, ∃ s, rowLookup x col = .ok (some s) ∧ s ≠ "" ∧
              pythonFloat s = none := by
            obtain ⟨x, hx, s', hxs, hne, hpf⟩ := hbad
            rcases List.mem_cons.mp hx with rfl | hxm
            · rw [hc] at hxs
              have : s = s' := Option.some.inj (Except.ok.inj hxs)
              rw [← this] at hpf
              rw [hq] at hpf
              exact absurd hpf (by simp)
            · exact ⟨x, hxm, s', hxs, hne, hpf⟩
          obtain ⟨t, ht1, ht2, ht3⟩ := extractValues_nonnumeric_raises rs hokrs hbadrs
          exact ⟨t, ht1, ht2, by simp [extractValues, hc, hse, hq, ht3]⟩

/-- C6: the aggregator's extraction step keeps, in input order,
exactly the parses of the cells that are neither `None` nor the empty
string (those are excluded); and whenever some row's cell is a
non-empty string that does not parse as a float, the aggregation fails
with `InvalidNumericValue` instead of skipping that row. -/
theorem aggregator_excludes_empty_rejects_nonnumeric (a : DictAggregator) :
    (∀ rows : List Row,
      (∀ r ∈ rows, ∃ c, rowLookup r a.column = .ok c ∧
        (c = Option.none ∨ ∃ s, c = some s ∧ (s = "" ∨ (pythonFloat s).isSome))) →
      extractValues a.column rows = .ok (rows.filterMap (numericCell a.column))) ∧
    (∀ rows : List Row,
      (∀ r ∈ rows, ∃ c, rowLookup r a.column = .ok c) →
      (∃ r ∈ rows, ∃ s, rowLookup r a.column = .ok (some s) ∧ s ≠ "" ∧
        pythonFloat s = none) →
      ∃ t, t ≠ "" ∧ pythonFloat t = none ∧
        a.aggregate rows = .error (.invalidNumericValue t)) := by
  refine ⟨fun rows h => extractValues_eq_filterMap rows h, fun rows hok hbad => ?_⟩
  obtain ⟨t, ht1, ht2, ht3⟩ := extractValues_nonnumeric_raises rows hok hbad
  exact ⟨t, ht1, ht2, by simp [DictAggregator.aggregate, ht3]⟩

/-- Witness for C6: exclusion on `["1", ""]` cells, failure on an
`"x"` cell. -/
theorem aggregator_excludes_empty_rejects_nonnumeric_witness :
    extractValues "p" [[("p", Option.some "1")], [("p", Option.some "")]] =
      .ok ([[("p", Option.some "1")], [("p", Option.some "")]].filterMap (numericCell "p")) ∧
    (∃ t, t ≠ "" ∧ pythonFloat t = none ∧
      (DictAggregator.mk "p" Strategy.avg).aggregate [[("p", Option.some "x")]] =
        .error (.invalidNumericValue t)) :=
  ⟨(aggregator_excludes_empty_rejects_nonnumeric (DictAggregator.mk "p" Strategy.avg)).1
    [[("p", Option.some "1")], [("p", Option.some "")]]
    (by
      intro r hr
      simp only [List.mem_cons, List.not_mem_nil, or_false] at hr
      rcases hr with rfl | rfl
      · exact ⟨Option.some "1", by decide, Or.inr ⟨"1", rfl, Or.inr (by decide)⟩⟩
      · exact ⟨Option.some "", by decide, Or.inr ⟨"", rfl, Or.inl rfl⟩⟩),
   (aggregator_excludes_empty_rejects_nonnumeric (DictAggregator.mk "p" Strategy.avg)).2
    [[("p", Option.some "x")]]
    (by
      intro r hr
      simp only [List.mem_cons, List.not_mem_nil, or_false] at hr
      subst hr
      exact ⟨Option.some "x", by decide⟩)
    ⟨[("p", Option.some "x")], List.mem_cons_self _ _, "x", by decide, by decide, by decide⟩⟩

/-! ## Claim C9 -/

theorem filterCommand_eq_filter (f : RowFilter) :
    ∀ rows : List Row, (∀ r ∈ rows, ∃ b, f.matchRow r = .ok b) →
      FilterCommand.execute f rows = .ok (rows.filter (matchedB f))
  | [], _ => rfl
  | r :: rs, h => by
    obtain ⟨b, hb⟩ := h r (List.mem_cons_self r rs)
    have hrs := filterCommand_eq_filter f rs (fun x hx => h x (List.mem_cons_of_mem r hx))
    simp only [FilterCommand.execute, hb, hrs, List.filter_cons]
    have hm : matchedB f r = b := by simp [matchedB, hb]
    rw [hm]

/-- C9: whenever the bound predicate evaluates without raising on
every row, `FilterCommand` returns exactly the rows the predicate
accepts, as a subsequence of the input: survivors keep their relative
order and nothing is duplicated, reordered or added. -/
theorem filter_returns_stable_subsequence (f : RowFilter) (rows : List Row)
    (h : ∀ r ∈ rows, ∃ b, f.matchRow r = .ok b) :
    FilterCommand.execute f rows = .ok (rows.filter (matchedB f)) ∧
    List.Sublist (rows.filter (matchedB f)) rows :=
  ⟨filterCommand_eq_filter f rows h, List.filter_sublist rows⟩

/-- Witness for C9: `price > 150` over the three-row table. -/
theorem filter_returns_stable_subsequence_witness :
    FilterCommand.execute (RowFilter.mk "price" ">" "150")
        [[("price", Option.some "100")], [("price", Option.some "200")],
         [("price", Option.some "300")]] =
      .ok ([[("price", Option.some "100")], [("price", Option.some "200")],
        [("price", Option.some "300")]].filter (matchedB (RowFilter.mk "price" ">" "150"))) ∧
    List.Sublist
      ([[("price", Option.some "100")], [("price", Option.some "200")],
        [("price", Option.some "300")]].filter (matchedB (RowFilter.mk "price" ">" "150")))
      [[("price", Option.some "100")], [("price", Option.some "200")],
       [("price", Option.some "300")]] :=
  filter_returns_stable_subsequence (RowFilter.mk "price" ">" "150")
    [[("price", Option.some "100")], [("price", Option.some "200")],
     [("price", Option.some "300")]]
    (by
      intro r hr
      simp only [List.mem_cons, List.not_mem_nil, or_false] at hr
      rcases hr with rfl | rfl | rfl
      · exact ⟨false, by decide⟩
      · exact ⟨true, by decide⟩
      · exact ⟨true, by decide⟩)

/-! ## Claim C7 -/

/-- C7: requesting an aggregation strategy name outside
`{avg, min, max, median}` makes the orchestrator fail with
`UnknownAggregation` during command assembly (provided the order-by
argument, if any, is well-formed, so that its own format error does
not fire first): the run returns that error for *every* row
collection, identically, producing no output — no filter, sort or
aggregate command ever executes over a row. -/
theorem unknown_aggregation_fails_before_any_row (args : Args) (c f : String)
    (hagg : args.aggregate = some (c, f))
    (hf : f ≠ "avg" ∧ f ≠ "min" ∧ f ≠ "max" ∧ f ≠ "median")
    (hob : ∀ s, args.order_by = some s → ∃ p, parseOrderBy s = .ok p) :
    ∀ rows : List Row, CsvApp.run rows args = .error (.unknownAggregation f) := by
  intro rows
  obtain ⟨h1, h2, h3, h4⟩ := hf
  have b1 : (f == "avg") = false := beq_eq_false_iff_ne.mpr h1
  have b2 : (f == "min") = false := beq_eq_false_iff_ne.mpr h2
  have b3 : (f == "max") = false := beq_eq_false_iff_ne.mpr h3
  have b4 : (f == "median") = false := beq_eq_false_iff_ne.mpr h4
  have hget : AggregationStrategyFactory.get f = .error (.unknownAggregation f) := by
    simp [AggregationStrategyFactory.get, AggregationStrategyFactory.strategies,
      List.lookup, b1, b2, b3, b4]
  have hbuild : buildCommands args = .error (.unknownAggregation f) := by
    rcases hord : args.order_by with _ | s
    · simp [buildCommands, hord, hagg, AggregatorFactory.create, hget]
    · obtain ⟨⟨pc, prev⟩, hp⟩ := hob s hord
      simp [buildCommands, hord, hp, hagg, AggregatorFactory.create, hget]
  simp [CsvApp.run, hbuild]

/-- Witness for C7: strategy name `"foo"`, rejected identically on the
empty row collection. -/
theorem unknown_aggregation_fails_before_any_row_witness :
    CsvApp.run [] (Args.mk Option.none Option.none (some ("p", "foo"))) =
      .error (.unknownAggregation "foo") :=
  unknown_aggregation_fails_before_any_row
    (Args.mk Option.none Option.none (some ("p", "foo"))) "p" "foo" rfl
    ⟨by decide, by decide, by decide, by decide⟩
    (by intro s hs; exact absurd hs (by simp)) []

/-! ## Claim C10 -/

theorem runCommands_append : ∀ (xs ys : List Command) (rows : List Row),
    runCommands (xs ++ ys) rows =
      match runCommands xs rows with
      | .error e => .error e
      | .ok (r1, o1) =>
        match runCommands ys r1 with
        | .error e => .error e
        | .ok (r2, o2) => .ok (r2, o1 ++ o2)
  | [], ys, rows => by
    simp only [List.nil_append, runCommands]
    cases runCommands ys rows with
    | error e => rfl
    | ok p => obtain ⟨r2, o2⟩ := p; simp
  | x :: xs, ys, rows => by
    simp only [List.cons_append, runCommands]
    cases x.execute rows with
    | error e => rfl
    | ok p =>
      obtain ⟨r1, o1⟩ := p
      dsimp only [List.append_eq]
      rw [runCommands_append xs ys r1]
      cases runCommands xs r1 with
      | error e => rfl
      | ok q =>
        obtain ⟨r2, o2⟩ := q
        dsimp only
        cases runCommands ys r2 with
        | error e => rfl
        | ok w => obtain ⟨r3, o3⟩ := w; simp [List.append_assoc]

theorem runCommands_no_agg_no_out : ∀ (cmds : List Command) (rows r : List Row)
    (o : List Out),
    (∀ cmd ∈ cmds, ∀ agg func, cmd ≠ .aggregateCmd agg func) →
    runCommands cmds rows = .ok (r, o) → o = []
  | [], rows, r, o, _, h => by
    simp only [runCommands] at h
    exact (Prod.mk.injEq .. ▸ Except.ok.inj h).2.symm
  | c :: cs, rows, r, o, hno, h => by
    simp only [runCommands] at h
    cases c with
    | filterCmd f =>
      simp only [Command.execute] at h
      cases hfe : FilterCommand.execute f rows with
      | error e => rw [hfe] at h; exact absurd h (by simp)
      | ok out =>
        rw [hfe] at h
        dsimp only at h
        cases hrc : runCommands cs out with
        | error e => rw [hrc] at h; exact absurd h (by simp)
        | ok q =>
          obtain ⟨r2, o2⟩ := q
          rw [hrc] at h
          dsimp only at h
          have ho : o = o2 := by
            have := Except.ok.inj h
            simp only [Prod.mk.injEq, List.nil_append] at this
            exact this.2.symm
          rw [ho]
          exact runCommands_no_agg_no_out cs out r2 o2
            (fun cmd hm => hno cmd (List.mem_cons_of_mem _ hm)) hrc
    | orderByCmd col rev =>
      simp only [Command.execute] at h
      cases hfe : OrderByCommand.execute col rev rows with
      | error e => rw [hfe] at h; exact absurd h (by simp)
      | ok out =>
        rw [hfe] at h
        dsimp only at h
        cases hrc : runCommands cs out with
        | error e => rw [hrc] at h; exact absurd h (by simp)
        | ok q =>
          obtain ⟨r2, o2⟩ := q
          rw [hrc] at h
          dsimp only at h
          have ho : o = o2 := by
            have := Except.ok.inj h
            simp only [Prod.mk.injEq, List.nil_append] at this
            exact this.2.symm
          rw [ho]
          exact runCommands_no_agg_no_out cs out r2 o2
            (fun cmd hm => hno cmd (List.mem_cons_of_mem _ hm)) hrc
    | aggregateCmd agg func =>
      exact absurd rfl (hno _ (List.mem_cons_self _ _) agg func)

theorem buildCommands_shape_aux (aggArg : Option (String × String))
    (pre : List Command) (cmds : List Command)
    (hpre : ∀ cmd ∈ pre, ∀ a fn, cmd ≠ Command.aggregateCmd a fn)
    (h : (match ((match aggArg with
            | some (c, f) =>
              match AggregatorFactory.create c f with
              | .error e => .error e
              | .ok agg => .ok [Command.aggregateCmd agg f]
            | none => .ok ([] : List Command)) : Except PyErr (List Command)) with
          | .error e => .error e
          | .ok aggCmds => (.ok (pre ++ aggCmds) : Except PyErr (List Command))) =
        Except.ok cmds) :
    ∃ pre2 agg, cmds = pre2 ++ agg ∧
      (∀ cmd ∈ pre2, ∀ a fn, cmd ≠ Command.aggregateCmd a fn) ∧
      (aggArg = Option.none → agg = []) ∧
      (∀ c f, aggArg = some (c, f) → ∃ a, AggregatorFactory.create c f = .ok a ∧
        agg = [Command.aggregateCmd a f]) := by
  rcases aggArg with _ | ⟨ac, af⟩
  · exact ⟨pre, [], (Except.ok.inj h).symm, hpre, fun _ => rfl,
      fun c f hcf => absurd hcf (by simp)⟩
  · dsimp only at h
    rcases hcr : AggregatorFactory.create ac af with e | a <;> rw [hcr] at h <;>
      dsimp only at h
    · exact absurd h (by simp)
    · refine ⟨pre, [Command.aggregateCmd a af], (Except.ok.inj h).symm, hpre,
        fun hn => absurd hn (by simp), fun c f hcf => ?_⟩
      obtain ⟨rfl, rfl⟩ : ac = c ∧ af = f := by
        have := Option.some.inj hcf
        exact ⟨congrArg Prod.fst this, congrArg Prod.snd this⟩
      exact ⟨a, hcr, rfl⟩

theorem buildCommands_shape (args : Args) (cmds : List Command)
    (h : buildCommands args = .ok cmds) :
    ∃ pre agg, cmds = pre ++ agg ∧
      (∀ cmd ∈ pre, ∀ a fn, cmd ≠ .aggregateCmd a fn) ∧
      (args.aggregate = Option.none → agg = []) ∧
      (∀ c f, args.aggregate = some (c, f) → ∃ a, AggregatorFactory.create c f = .ok a ∧
        agg = [Command.aggregateCmd a f]) := by
  unfold buildCommands at h
  rcases hw : args.whereArg with _ | ⟨cw, ow, vw⟩ <;> (rw [hw] at h; dsimp only at h) <;>
    rcases ho : args.order_by with _ | s <;> (rw [ho] at h; dsimp only at h)
  · exact buildCommands_shape_aux args.aggregate [] cmds (by simp) h
  · rcases hp : parseOrderBy s with e | ⟨oc, orv⟩ <;> (rw [hp] at h; dsimp only at h)
    · exact absurd h (by simp)
    · exact buildCommands_shape_aux args.aggregate [Command.orderByCmd oc orv] cmds
        (by intro cmd hm a fn; fin_cases hm; all_goals simp) h
  · exact buildCommands_shape_aux args.aggregate [Command.filterCmd
      (FilterFactory.create cw ow vw)] cmds
      (by intro cmd hm a fn; fin_cases hm; all_goals simp) h
  · rcases hp : parseOrderBy s with e | ⟨oc, orv⟩ <;> (rw [hp] at h; dsimp only at h)
    · exact absurd h (by simp)
    · exact buildCommands_shape_aux args.aggregate
        [Command.filterCmd (FilterFactory.create cw ow vw), Command.orderByCmd oc orv]
        cmds (by intro cmd hm a fn; fin_cases hm; all_goals simp) h

/-- C10: an `AggregateCommand` passes its input rows through unchanged
(only its printed side effect differs), and after `CsvApp.run` the
table output appears if and only if no aggregate stage was requested:
without `--aggregate` the output is exactly the rendered final row
collection, with it the output is exactly the aggregate's own
single-value print and the printer is never called. -/
theorem aggregate_suppresses_table_output :
    (∀ (agg : DictAggregator) (func : String) (rows : List Row)
        (res : List Row × List Out),
      AggregateCommand.execute agg func rows = .ok res → res.1 = rows) ∧
    (∀ (args : Args) (rows finalRows : List Row) (outs : List Out),
      CsvApp.run rows args = .ok (finalRows, outs) →
      (args.aggregate = Option.none → outs = [Out.table finalRows]) ∧
      (∀ c f, args.aggregate = some (c, f) → ∃ v, outs = [Out.aggValue f v])) := by
  constructor
  · intro agg func rows res h
    unfold AggregateCommand.execute at h
    cases hag : agg.aggregate rows with
    | error e => rw [hag] at h; exact absurd h (by simp)
    | ok v =>
      rw [hag] at h
      rw [← Except.ok.inj h]
  · intro args rows finalRows outs h
    unfold CsvApp.run at h
    cases hb : buildCommands args with
    | error e => rw [hb] at h; exact absurd h (by simp)
    | ok cmds =>
      rw [hb] at h
      dsimp only at h
      cases hr : runCommands cmds rows with
      | error e => rw [hr] at h; exact absurd h (by simp)
      | ok p =>
        obtain ⟨fr, outs0⟩ := p
        rw [hr] at h
        dsimp only at h
        obtain ⟨pre, agg, hsplit, hpre, hagg⟩ := buildCommands_shape args cmds hb
        rw [hsplit, runCommands_append] at hr
        cases hpr : runCommands pre rows with
        | error e => rw [hpr] at hr; exact absurd hr (by simp)
        | ok q =>
          obtain ⟨r1, o1⟩ := q
          rw [hpr] at hr
          dsimp only at hr
          have ho1 : o1 = [] := runCommands_no_agg_no_out pre rows r1 o1 hpre hpr
          rcases hargagg : args.aggregate with _ | ⟨ac, af⟩
      -- no aggregate requested: `agg = []`, so the only output is the table
          · rw [hagg.1 hargagg] at hr
            simp only [runCommands] at hr
            have hro : fr = r1 ∧ outs0 = o1 ++ [] := by
              have := Except.ok.inj hr
              simp only [Prod.mk.injEq] at this
              exact ⟨this.1.symm, this.2.symm⟩
            rw [hargagg] at h
            simp only [Option.isSome_none, Bool.false_eq_true, if_false] at h
            have hfin := Except.ok.inj h
            simp only [Prod.mk.injEq] at hfin
            constructor
            · intro _
              rw [← hfin.2, hro.2, ho1]
              simp [hfin.1]
            · intro c f hcf
              exact absurd hcf (by simp)
      -- aggregate requested: the one aggregate command prints the single value
          · obtain ⟨a, hcr, rfl⟩ := hagg.2 ac af hargagg
            simp only [runCommands, Command.execute] at hr
            cases hag : AggregateCommand.execute a af r1 with
            | error e => rw [hag] at hr; exact absurd hr (by simp)
            | ok w =>
              rw [hag] at hr
              unfold AggregateCommand.execute at hag
              cases hagr : a.aggregate r1 with
              | error e => rw [hagr] at hag; exact absurd hag (by simp)
              | ok v =>
                rw [hagr] at hag
                rw [← Except.ok.inj hag] at hr
                simp only [runCommands] at hr
                have hro : fr = r1 ∧ outs0 = o1 ++ [Out.aggValue af v] := by
                  have := Except.ok.inj hr
                  simp only [Prod.mk.injEq, List.append_nil] at this
                  exact ⟨this.1.symm, this.2.symm⟩
                rw [hargagg] at h
                simp only [Option.isSome_some, if_true] at h
                have hfin := Except.ok.inj h
                simp only [Prod.mk.injEq] at hfin
                constructor
                · intro hn
                  exact absurd hn (by simp)
                · intro c f hcf
                  have hinj := Option.some.inj hcf
                  have hf : af = f := (Prod.mk.injEq .. ▸ hinj).2
                  refine ⟨v, ?_⟩
                  rw [← hfin.2, hro.2, ho1, ← hf]
                  simp

/-- Witness for C10: the passthrough at a concrete aggregate command,
and a run with only `--aggregate price avg` over the empty collection,
whose sole output is the aggregate value (no table). -/
theorem aggregate_suppresses_table_output_witness :
    (([], [Out.aggValue "avg" Option.none]) : List Row × List Out).1 = ([] : List Row) ∧
    (∃ v, [Out.aggValue "avg" Option.none] = [Out.aggValue "avg" v]) :=
  ⟨aggregate_suppresses_table_output.1 (DictAggregator.mk "p" Strategy.avg) "avg" []
      ([], [Out.aggValue "avg" Option.none]) (by decide),
   (aggregate_suppresses_table_output.2
      (Args.mk Option.none Option.none (some ("p", "avg"))) [] []
      [Out.aggValue "avg" Option.none] (by decide)).2 "p" "avg" rfl⟩

/-! ## Claim C8 -/

theorem computeKeys_spec {col : String} : ∀ {rows : List Row}
    {keyed : List (Row × PyVal)}, computeKeys col rows = .ok keyed →
    ∀ p ∈ keyed, orderKey col p.1 = .ok p.2 := by
  intro rows
  induction rows with
  | nil =>
    intro keyed h p hp
    simp only [computeKeys] at h
    rw [← Except.ok.inj h] at hp
    exact absurd hp (List.not_mem_nil p)
  | cons r rs ih =>
    intro keyed h p hp
    simp only [computeKeys] at h
    cases hk : orderKey col r with
    | error e => rw [hk] at h; exact absurd h (by simp)
    | ok k =>
      rw [hk] at h
      dsimp only at h
      cases hrest : computeKeys col rs with
      | error e => rw [hrest] at h; exact absurd h (by simp)
      | ok rest =>
        rw [hrest] at h
        dsimp only at h
        rw [← Except.ok.inj h] at hp
        rcases List.mem_cons.mp hp with rfl | hm
        · exact hk
        · exact ih hrest p hm

theorem computeKeys_fst {col : String} : ∀ {rows : List Row}
    {keyed : List (Row × PyVal)}, computeKeys col rows = .ok keyed →
    keyed.map Prod.fst = rows := by
  intro rows
  induction rows with
  | nil =>
    intro keyed h
    simp only [computeKeys] at h
    rw [← Except.ok.inj h]
    rfl
  | cons r rs ih =>
    intro keyed h
    simp only [computeKeys] at h
    cases hk : orderKey col r with
    | error e => rw [hk] at h; exact absurd h (by simp)
    | ok k =>
      rw [hk] at h
      dsimp only at h
      cases hrest : computeKeys col rs with
      | error e => rw [hrest] at h; exact absurd h (by simp)
      | ok rest =>
        rw [hrest] at h
        dsimp only at h
        rw [← Except.ok.inj h]
        simp [ih hrest]

theorem computeKeys_of_spec {col : String} : ∀ (keyed : List (Row × PyVal)),
    (∀ p ∈ keyed, orderKey col p.1 = .ok p.2) →
    computeKeys col (keyed.map Prod.fst) = .ok keyed
  | [], _ => rfl
  | (r, k) :: rest, h => by
    have hk : orderKey col r = .ok k := h (r, k) (List.mem_cons_self _ _)
    have hrest := computeKeys_of_spec rest (fun p hp => h p (List.mem_cons_of_mem _ hp))
    simp [computeKeys, hk, hrest]

theorem pySortPairs_perm (rev : Bool) (l : List (Row × PyVal)) :
    (pySortPairs rev l).Perm l := by
  cases rev
  · exact List.perm_insertionSort _ l
  · exact (List.reverse_perm _).trans
      ((List.perm_insertionSort _ l.reverse).trans (List.reverse_perm l))

theorem pySortPairs_idem (rev : Bool) (l : List (Row × PyVal)) :
    pySortPairs rev (pySortPairs rev l) = pySortPairs rev l := by
  cases rev <;> dsimp only [pySortPairs]
  · exact (List.sorted_insertionSort rowKeyLe l).insertionSort_eq
  · rw [List.reverse_reverse,
      (List.sorted_insertionSort rowKeyLe l.reverse).insertionSort_eq]

theorem comparableKeys_perm {ks kt : List PyVal} (h : ks.Perm kt) :
    comparableKeys ks = comparableKeys kt := by
  unfold comparableKeys
  rw [h.length_eq]
  have ha : ∀ p : PyVal → Bool, ks.all p = kt.all p := by
    intro p
    refine Bool.coe_iff_coe.mp ?_
    simp only [List.all_eq_true]
    exact ⟨fun H x hx => H x (h.symm.subset hx), fun H x hx => H x (h.subset hx)⟩
  rw [ha, ha]

theorem filter_orderedInsert_pos {α : Type _} (r : α → α → Prop) [DecidableRel r]
    (p : α → Bool) (a : α) : ∀ l : List α,
    (∀ b ∈ l, p b = true → r a b) → p a = true →
    (List.orderedInsert r a l).filter p = a :: l.filter p
  | [], _, hpa => by simp [hpa]
  | b :: bs, h, hpa => by
    by_cases hr : r a b
    · rw [List.orderedInsert, if_pos hr]
      simp [List.filter_cons, hpa]
    · have hpb : p b = false := by
        cases hpb : p b
        · rfl
        · exact absurd (h b (List.mem_cons_self b bs) hpb) hr
      rw [List.orderedInsert, if_neg hr]
      simp only [List.filter_cons, hpb, if_false, Bool.false_eq_true]
      exact filter_orderedInsert_pos r p a bs
        (fun c hc hpc => h c (List.mem_cons_of_mem _ hc) hpc) hpa

theorem filter_orderedInsert_neg {α : Type _} (r : α → α → Prop) [DecidableRel r]
    (p : α → Bool) (a : α) (hpa : p a = false) : ∀ l : List α,
    (List.orderedInsert r a l).filter p = l.filter p
  | [] => by simp [hpa]
  | b :: bs => by
    by_cases hr : r a b
    · rw [List.orderedInsert, if_pos hr]
      simp [List.filter_cons, hpa]
    · rw [List.orderedInsert, if_neg hr]
      simp only [List.filter_cons]
      rw [filter_orderedInsert_neg r p a hpa bs]

theorem filter_insertionSort_ties {α : Type _} (r : α → α → Prop) [DecidableRel r]
    (p : α → Bool) : ∀ l : List α,
    (∀ a ∈ l, ∀ b ∈ l, p a = true → p b = true → r a b) →
    (List.insertionSort r l).filter p = l.filter p
  | [], _ => rfl
  | a :: l, h => by
    have hrec := filter_insertionSort_ties r p l
      (fun x hx y hy hpx hpy =>
        h x (List.mem_cons_of_mem _ hx) y (List.mem_cons_of_mem _ hy) hpx hpy)
    rw [List.insertionSort]
    cases hpa : p a
    · rw [filter_orderedInsert_neg r p a hpa, hrec]
      simp [List.filter_cons, hpa]
    · rw [filter_orderedInsert_pos r p a (List.insertionSort r l)
        (fun b hb hpb => h a (List.mem_cons_self _ _) b
          (List.mem_cons_of_mem _ ((List.mem_insertionSort r).mp hb)) hpa hpb) hpa, hrec]
      simp [List.filter_cons, hpa]

theorem pySortPairs_filter (rev : Bool) (l : List (Row × PyVal))
    (p : Row × PyVal → Bool)
    (hties : ∀ a ∈ l, ∀ b ∈ l, p a = true → p b = true → rowKeyLe a b) :
    (pySortPairs rev l).filter p = l.filter p := by
  cases rev <;> dsimp only [pySortPairs]
  · exact filter_insertionSort_ties _ p l hties
  · rw [List.filter_reverse, filter_insertionSort_ties _ p l.reverse
      (fun a ha b hb hpa hpb =>
        hties a (List.mem_reverse.mp ha) b (List.mem_reverse.mp hb) hpa hpb),
      ← List.filter_reverse, List.reverse_reverse]

theorem orderBy_execute_ok_self {col : String} {rev : Bool} {rows s : List Row}
    (h : OrderByCommand.execute col rev rows = .ok s) :
    OrderByCommand.execute col rev s = .ok s := by
  unfold OrderByCommand.execute at h ⊢
  cases hk : computeKeys col rows with
  | error e => rw [hk] at h; exact absurd h (by simp)
  | ok keyed =>
    rw [hk] at h
    dsimp only at h
    by_cases hc : comparableKeys (keyed.map Prod.snd) = true
    · rw [if_pos hc] at h
      have hs : s = (pySortPairs rev keyed).map Prod.fst := (Except.ok.inj h).symm
      have hperm : (pySortPairs rev keyed).Perm keyed := pySortPairs_perm rev keyed
      have hspec : ∀ p ∈ pySortPairs rev keyed, orderKey col p.1 = .ok p.2 :=
        fun p hp => computeKeys_spec hk p (hperm.subset hp)
      have hck : computeKeys col s = .ok (pySortPairs rev keyed) := by
        rw [hs]; exact computeKeys_of_spec _ hspec
      rw [hck]
      dsimp only
      have hc2 : comparableKeys ((pySortPairs rev keyed).map Prod.snd) = true := by
        rw [comparableKeys_perm (hperm.map Prod.snd)]; exact hc
      rw [if_pos hc2, pySortPairs_idem, ← hs]
    · rw [if_neg hc] at h; exact absurd h (by simp)

/-- C8: the order-by operation is idempotent — running it on its own
successful output returns that output unchanged (and a failing run
composed with itself fails identically) — and it is stable: for every
sort key, the rows carrying that key appear in the output in exactly
their input order. -/
theorem orderBy_idempotent_and_stable (col : String) (rev : Bool) (rows : List Row) :
    (OrderByCommand.execute col rev rows).bind (OrderByCommand.execute col rev) =
      OrderByCommand.execute col rev rows ∧
    (∀ (s : List Row) (k : PyVal), OrderByCommand.execute col rev rows = .ok s →
      s.filter (fun r => decide (orderKey col r = .ok k)) =
        rows.filter (fun r => decide (orderKey col r = .ok k))) := by
  constructor
  · cases hx : OrderByCommand.execute col rev rows with
    | error e => rfl
    | ok s =>
      show OrderByCommand.execute col rev s = Except.ok s
      exact orderBy_execute_ok_self hx
  · intro s k hx
    unfold OrderByCommand.execute at hx
    cases hk : computeKeys col rows with
    | error e => rw [hk] at hx; exact absurd hx (by simp)
    | ok keyed =>
      rw [hk] at hx
      dsimp only at hx
      by_cases hc : comparableKeys (keyed.map Prod.snd) = true
      · rw [if_pos hc] at hx
        have hs : s = (pySortPairs rev keyed).map Prod.fst := (Except.ok.inj hx).symm
        have hrows : keyed.map Prod.fst = rows := computeKeys_fst hk
        have hspecK : ∀ p ∈ keyed, orderKey col p.1 = .ok p.2 := computeKeys_spec hk
        have hspecS : ∀ p ∈ pySortPairs rev keyed, orderKey col p.1 = .ok p.2 :=
          fun p hp => hspecK p ((pySortPairs_perm rev keyed).subset hp)
        have hagree : ∀ (l : List (Row × PyVal)),
            (∀ p ∈ l, orderKey col p.1 = .ok p.2) →
            l.filter ((fun r => decide (orderKey col r = .ok k)) ∘ Prod.fst) =
              l.filter (fun pr => decide (pr.2 = k)) := by
          intro l hl
          refine List.filter_congr ?_
          intro pr hpr
          simp only [Function.comp_apply]
          refine decide_eq_decide.mpr ?_
          rw [hl pr hpr]
          simp
        rw [hs, hrows.symm, List.filter_map, List.filter_map,
          hagree _ hspecS, hagree _ hspecK]
        rw [pySortPairs_filter rev keyed (fun pr => decide (pr.2 = k))]
        intro a _ b _ hpa hpb
        have hak : a.2 = k := of_decide_eq_true hpa
        have hbk : b.2 = k := of_decide_eq_true hpb
        show keyLeB a.2 b.2 = true
        rw [hak, hbk]
        exact keyLeB_refl k
      · rw [if_neg hc] at hx; exact absurd hx (by simp)

/-- Witness for C8 at a concrete two-row collection. -/
theorem orderBy_idempotent_and_stable_witness :
    ((OrderByCommand.execute "b" false [[("b", Option.some "B")], [("b", Option.some "A")]]).bind
        (OrderByCommand.execute "b" false) =
      OrderByCommand.execute "b" false [[("b", Option.some "B")], [("b", Option.some "A")]]) ∧
    ([[("b", Option.some "A")], [("b", Option.some "B")]].filter
        (fun r => decide (orderKey "b" r = .ok (PyVal.str "A"))) =
      [[("b", Option.some "B")], [("b", Option.some "A")]].filter
        (fun r => decide (orderKey "b" r = .ok (PyVal.str "A")))) :=
  ⟨(orderBy_idempotent_and_stable "b" false
      [[("b", Option.some "B")], [("b", Option.some "A")]]).1,
   (orderBy_idempotent_and_stable "b" false
      [[("b", Option.some "B")], [("b", Option.some "A")]]).2
     [[("b", Option.some "A")], [("b", Option.some "B")]] (PyVal.str "A") (by decide)⟩

end CsvPipeline
